import Mathlib

/-!
Verification of the webpack-subresource-integrity plugin (src/index.js)
against its natural-language specification.

The plugin's asset byte streams are modelled as lists of symbols: a
symbol is either a literal text segment or a placeholder marker.  The
spec (§3, "Placeholder Marker") requires markers to be deterministic,
collision-resistant strings that cannot collide with legitimate source
content, so treating each marker as one atomic symbol distinct from all
literal text is a faithful shallow embedding of the byte stream; the
JavaScript `indexOf` over bytes becomes an index search over symbols,
and the `ReplaceSource` range replacement (marker → digest text, with
offsets computed against the original source) becomes a positional
`List.set`.

External collaborators (the cryptographic provider, the path library)
are passed in as function parameters; repository code missing from
src/ (util.js) is modelled from the spec and marked as such in doc
comments.
-/

/-- A segment of an asset's byte stream: literal text, or a placeholder
marker determined by the configured hash algorithm names and a chunk id. -/
inductive Seg where
  | lit (s : String)
  | marker (algos : List String) (id : Nat)
deriving DecidableEq, Repr

/-- Modelled from the spec (§4.2, `makePlaceholder` lives in util.js which is
not under src/): a deterministic, collision-resistant marker derived from the
algorithm list and the chunk id; in the symbol model it is the atomic marker
symbol carrying exactly those two inputs. -/
def makePlaceholder (algos : List String) (id : Nat) : Seg :=
  Seg.marker algos id

/-- An emitted asset: its (symbol-level) source and the `integrity`
property attached to it, absent until computed. -/
structure Asset where
  source : List Seg
  integrity : Option String
deriving DecidableEq, Repr

/-- JavaScript truthiness of the `integrity` property: `undefined` and the
empty string are falsy, every other string is truthy. -/
def truthy : Option String → Bool
  | none => false
  | some s => !(s == "")

/-- Number of occurrences of a symbol in a source. -/
def countSeg : List Seg → Seg → Nat
  | [], _ => 0
  | x :: xs, m => (if x = m then 1 else 0) + countSeg xs m

/-- `String.prototype.indexOf` over the symbol model: index of the first
occurrence of a symbol, if any. -/
def idxOf : List Seg → Seg → Option Nat
  | [], _ => none
  | x :: xs, m => if x = m then some 0 else (idxOf xs m).map (· + 1)

/-- Modelled from the spec (§4.1, `computeIntegrity` lives in util.js which is
not under src/): join a list of strings with single spaces. -/
def joinSpace : List String → String
  | [] => ""
  | [s] => s
  | s :: rest => s ++ " " ++ joinSpace rest

/-- Modelled from the spec (§4.1, util.js is not under src/): for each
algorithm, format `name-digest` and join all entries with a single space,
preserving the input algorithm order.  The cryptographic provider is the
external `digest` parameter. -/
def computeIntegrity (digest : String → List Seg → String)
    (algos : List String) (src : List Seg) : String :=
  joinSpace (algos.map (fun a => a ++ "-" ++ digest a src))

/-- The chunk graph exposed by the compilation: runtime-load children,
output file lists, and the finite universe of chunk ids of the build. -/
structure Graph where
  children : Nat → List Nat
  files : Nat → List String
  univ : List Nat

/-- Visiting one more chunk strictly shrinks the unvisited part of the
universe: the termination measure of the traversal. -/
theorem filter_not_mem_snoc_lt (univ vis : List Nat) (u : Nat)
    (h1 : u ∉ vis) (h2 : u ∈ univ) :
    (univ.filter (fun x => decide (x ∉ vis ++ [u]))).length <
      (univ.filter (fun x => decide (x ∉ vis))).length := by
  have hsub : List.Sublist (univ.filter (fun x => decide (x ∉ vis ++ [u])))
      (univ.filter (fun x => decide (x ∉ vis))) := by
    apply List.monotone_filter_right
    intro a ha
    simp only [decide_eq_true_eq, List.mem_append, List.mem_singleton] at ha ⊢
    exact fun hc => ha (Or.inl hc)
  rcases Nat.eq_or_lt_of_le hsub.length_le with heq | hlt
  · exfalso
    have heqlist := hsub.eq_of_length heq
    have hu_mem : u ∈ univ.filter (fun x => decide (x ∉ vis)) := by
      simp only [List.mem_filter, decide_eq_true_eq]
      exact ⟨h2, h1⟩
    rw [← heqlist] at hu_mem
    simp [List.mem_filter] at hu_mem
  · exact hlt

/-- Modelled from the spec (§4.3, `findChunks` lives in util.js which is not
under src/): depth-first traversal over the runtime-load edges, collecting
every reachable chunk exactly once with a visited set keyed by chunk id,
guarding cycles.  The worklist discipline (pop a chunk, push its children on
the front) yields depth-first discovery order with the root first. -/
def dfsAux (g : Nat → List Nat) (univ : List Nat) :
    List Nat → List Nat → List Nat
  | vis, [] => vis
  | vis, u :: stack =>
    if u ∈ vis ∨ u ∉ univ then
      dfsAux g univ vis stack
    else
      dfsAux g univ (vis ++ [u]) (g u ++ stack)
  termination_by vis stack =>
    ((univ.filter (fun x => decide (x ∉ vis))).length, stack.length)
  decreasing_by
  · apply Prod.Lex.right
    exact Nat.lt_succ_self _
  · apply Prod.Lex.left
    rename_i h
    push_neg at h
    exact filter_not_mem_snoc_lt univ vis u h.1 h.2

/-- Modelled from the spec (§4.3): the sequence of chunks reachable from a
root via runtime-load edges, in depth-first discovery order, root included. -/
def findChunks (g : Graph) (root : Nat) : List Nat :=
  dfsAux g.children g.univ [] [root]

/-- The order in which `processChunk` visits the discovered chunks:
`Array.from(util.findChunks(chunk)).reverse()` (src/index.js:204). -/
def processOrder (g : Graph) (root : Nat) : List Nat :=
  (findChunks g root).reverse

/-- An element of a supplied `options.hashFuncNames` array: a string (the
primitive/String-object distinction of src/index.js:125-126 collapses, both
are accepted) or a non-string value rendered by its JavaScript string form. -/
inductive HashItem where
  | str (s : String)
  | nonStr (rendered : String)
deriving DecidableEq, Repr

/-- The value found at `options.hashFuncNames`: either not an array at all
(rendered by its string form in the error message, as string concatenation
does in JavaScript), or an array of items. -/
inductive HFN where
  | notArray (rendered : String)
  | arr (items : List HashItem)
deriving DecidableEq, Repr

/-- The plugin options after the constructor has applied defaults
(src/index.js:37-41). -/
structure Options where
  enabled : Bool
  hashFuncNames : HFN
deriving DecidableEq, Repr

/-- Instance state of `SubresourceIntegrityPlugin`: options, the
message-keyed memo `this.emittedMessages` (src/index.js:43) and the
`this.optionsValidated` latch (src/index.js:70-73). -/
structure Plugin where
  options : Options
  emittedMessages : List String
  optionsValidated : Bool
deriving DecidableEq, Repr

/-- The per-build compilation object: diagnostic sinks, the configured
`output.crossOriginLoading` policy (`none` = falsy), the asset table with
its key list, and the pre-pass chunk-id → asset-path table. -/
structure Compilation where
  warnings : List String
  errors : List String
  crossOriginLoading : Option String
  assets : String → Asset
  assetKeys : List String
  sriChunkAssets : Nat → Option String

/-- `emitMessage` (src/index.js:46-48): push the prefixed message onto the
given diagnostic list. -/
def emitMessage (messages : List String) (message : String) : List String :=
  messages ++ ["webpack-subresource-integrity: " ++ message]

/-- `emitMessageOnce` (src/index.js:50-55): skip if the message is in the
instance memo, otherwise record it in the memo and emit it. -/
def emitMessageOnce (pl : Plugin) (messages : List String) (message : String) :
    Plugin × List String :=
  if message ∈ pl.emittedMessages then (pl, messages)
  else ({ pl with emittedMessages := pl.emittedMessages ++ [message] },
        emitMessage messages message)

/-- `warnOnce` (src/index.js:57-59): deduplicated emission into
`compilation.warnings`. -/
def warnOnce (pl : Plugin) (c : Compilation) (message : String) :
    Plugin × Compilation :=
  let r := emitMessageOnce pl c.warnings message
  (r.1, { c with warnings := r.2 })

/-- `error` (src/index.js:61-63): non-deduplicated emission into
`compilation.errors`. -/
def error (c : Compilation) (message : String) : Compilation :=
  { c with errors := emitMessage c.errors message }

/-- `errorOnce` (src/index.js:65-67): deduplicated emission into
`compilation.errors`. -/
def errorOnce (pl : Plugin) (c : Compilation) (message : String) :
    Plugin × Compilation :=
  let r := emitMessageOnce pl c.errors message
  (r.1, { c with errors := r.2 })

/-- A JavaScript value passed as the constructor argument. -/
inductive JSArg where
  | jsNull
  | undef
  | obj (enabled : Option Bool) (hashFuncNames : Option HFN)
  | nonObj (rendered : String)
deriving DecidableEq, Repr

/-- The `SubresourceIntegrityPlugin` constructor (src/index.js:27-44):
`null`/`undefined` become an empty options object, other non-objects throw,
and `Object.assign` lays the supplied fields over the default
`enabled: true`.  A field absent from the supplied object (`Option.none`)
is not copied by `Object.assign`; an absent `hashFuncNames` is the
JavaScript `undefined`, modelled as `HFN.notArray "undefined"`. -/
def SubresourceIntegrityPlugin (arg : JSArg) : Except String Plugin :=
  match arg with
  | .nonObj _ =>
      .error "webpack-subresource-integrity: argument must be an object"
  | .jsNull =>
      .ok { options := { enabled := true, hashFuncNames := .notArray "undefined" },
            emittedMessages := [], optionsValidated := false }
  | .undef =>
      .ok { options := { enabled := true, hashFuncNames := .notArray "undefined" },
            emittedMessages := [], optionsValidated := false }
  | .obj en hfn =>
      .ok { options := { enabled := en.getD true,
                         hashFuncNames := hfn.getD (.notArray "undefined") },
            emittedMessages := [], optionsValidated := false }

/-- The error text `validateHashFuncName` produces for a failing item
(src/index.js:127-140); the runtime exception text raised by
`crypto.createHash` for an unsupported digest name is summarised as
`unsupported`. -/
def itemFailMsg : HashItem → String
  | .nonStr rendered =>
      "options.hashFuncNames must be an array of hash function names, " ++
        "but contained " ++ rendered ++ "."
  | .str s => "Cannot use hash function " ++ s ++ ": unsupported"

/-- Whether `validateHashFuncName` accepts an item: it must be a string and
`crypto.createHash` (the external `supported` predicate) must accept it. -/
def itemOk (supported : String → Bool) : HashItem → Bool
  | .nonStr _ => false
  | .str s => supported s

/-- `validateHashFuncName` (src/index.js:123-143): reject non-strings, then
probe the cryptographic provider; a failure emits one (non-deduplicated)
error and returns false. -/
def validateHashFuncName (supported : String → Bool) (c : Compilation)
    (item : HashItem) : Compilation × Bool :=
  if itemOk supported item then (c, true)
  else (error c (itemFailMsg item), false)

/-- `Array.prototype.every` over `validateHashFuncName` with its
side effects (src/index.js:95-96): validate items left to right,
stopping at the first failure. -/
def everyValidate (supported : String → Bool) :
    Compilation → List HashItem → Compilation × Bool
  | c, [] => (c, true)
  | c, item :: rest =>
    let r := validateHashFuncName supported c item
    if r.2 then everyValidate supported r.1 rest else (r.1, false)

/-- The W3C-mandated digest names (src/index.js:16). -/
def standardHashFuncNames : List String := ["sha256", "sha384", "sha512"]

/-- `warnStandardHashFunc` (src/index.js:104-121): advisory warning when no
configured name is in the mandated set. -/
def warnStandardHashFunc (pl : Plugin) (c : Compilation) : Plugin × Compilation :=
  match pl.options.hashFuncNames with
  | .notArray _ => (pl, c)
  | .arr items =>
    if items.any (fun it => match it with
        | .str s => standardHashFuncNames.contains s
        | .nonStr _ => false) then
      (pl, c)
    else
      warnOnce pl c
        ("It is recommended that at least one hash function is part of the set " ++
         "for which support is mandated by the specification.")

/-- `validateHashFuncNames` (src/index.js:87-102): a non-array value is one
hard error and disables the feature; otherwise items are validated by
`every` (stopping at the first failure, which disables the feature); if all
pass, the advisory standard-function check runs. -/
def validateHashFuncNames (supported : String → Bool) (pl : Plugin)
    (c : Compilation) : Plugin × Compilation :=
  match pl.options.hashFuncNames with
  | .notArray rendered =>
    ({ pl with options := { pl.options with enabled := false } },
     error c ("options.hashFuncNames must be an array of hash function names, " ++
              "instead got " ++ rendered ++ "."))
  | .arr items =>
    let r := everyValidate supported c items
    if r.2 then warnStandardHashFunc pl r.1
    else ({ pl with options := { pl.options with enabled := false } }, r.1)

/-- `validateOptions` (src/index.js:69-85): a no-op after the first call via
the `optionsValidated` latch; the first call warns when SRI is enabled
without a cross-origin policy, then validates the hash function names. -/
def validateOptions (supported : String → Bool) (pl : Plugin)
    (c : Compilation) : Plugin × Compilation :=
  if pl.optionsValidated then (pl, c)
  else
    let pl1 := { pl with optionsValidated := true }
    let r :=
      if pl1.options.enabled ∧ c.crossOriginLoading = none then
        warnOnce pl1 c
          ("SRI requires a cross-origin policy, defaulting to anonymous. " ++
           "Set webpack option output.crossOriginLoading to a value other " ++
           "than false to make this warning go away.")
      else (pl1, c)
    validateHashFuncNames supported r.1 r.2

/-- Whether a character list starts with the given pattern. -/
def startsWithChars : List Char → List Char → Bool
  | [], _ => true
  | _ :: _, [] => false
  | p :: ps, x :: xs => p == x && startsWithChars ps xs

/-- Whether a character list contains the given pattern as a contiguous
run (JavaScript `indexOf(pat) >= 0`). -/
def containsChars (pat : List Char) : List Char → Bool
  | [] => pat.isEmpty
  | x :: xs => startsWithChars pat (x :: xs) || containsChars pat xs

/-- `source.indexOf("webpackHotUpdate") >= 0` (src/index.js:157) over the
symbol model: some literal segment contains the hot-update token. -/
def segHasHotUpdate : Seg → Bool
  | .lit s => containsChars "webpackHotUpdate".toList s.toList
  | .marker _ _ => false

/-- `warnIfHotUpdate` (src/index.js:154-164). -/
def warnIfHotUpdate (pl : Plugin) (c : Compilation) (src : List Seg) :
    Plugin × Compilation :=
  if src.any segHasHotUpdate then
    warnOnce pl c
      ("webpack-subresource-integrity may interfere with hot reloading. " ++
       "Consider disabling this plugin in development mode.")
  else (pl, c)

/-- `Map.prototype.set` on the insertion-ordered `hashByChunkId` map:
update in place if the key exists, else append. -/
def mapSet (m : List (Nat × String)) (k : Nat) (v : String) :
    List (Nat × String) :=
  if m.any (fun p => p.1 == k) then
    m.map (fun p => if p.1 == k then (k, v) else p)
  else m ++ [(k, v)]

/-- `Map.prototype.get`: the value stored for a key, if any. -/
def lookupId (m : List (Nat × String)) (k : Nat) : Option String :=
  (m.find? (fun p => p.1 == k)).map (fun p => p.2)

/-- One iteration of `replaceAsset`'s marker loop (src/index.js:179-188):
look the marker up in the ORIGINAL source; when present, replace that
position in the accumulated rewrite; when absent, skip silently. -/
def applyEntry (algos : List String) (oldSource : List Seg)
    (acc : List Seg) (idAndHash : Nat × String) : List Seg :=
  match idxOf oldSource (makePlaceholder algos idAndHash.1) with
  | some magicMarkerPos => acc.set magicMarkerPos (Seg.lit idAndHash.2)
  | none => acc

/-- `replaceAsset` (src/index.js:166-195): wrap the asset at `chunkFile`,
and for every recorded (chunk id, integrity) entry locate its magic marker
in the ORIGINAL source (`oldSource.indexOf`) and replace that range; the
marker and its replacement each occupy one symbol, so original positions
stay valid, and a range replacement at original position `pos` is
`List.set pos`.  Absent markers are skipped silently.  The rewritten asset
gets its integrity computed from its new source, and the asset table slot
is reassigned (copy-on-write). -/
def replaceAsset (digest : String → List Seg → String) (algos : List String)
    (assets : String → Asset) (hashByChunkId : List (Nat × String))
    (chunkFile : String) : (String → Asset) × Asset :=
  let oldSource := (assets chunkFile).source
  let newSource := hashByChunkId.foldl (applyEntry algos oldSource) oldSource
  let newAsset : Asset :=
    { source := newSource,
      integrity := some (computeIntegrity digest algos newSource) }
  (fun p => if p = chunkFile then newAsset else assets p, newAsset)

/-- The accumulator threaded through `processChunk`'s loop: the plugin
instance (for the message memo), the compilation (diagnostics), the asset
table passed to `processChunk`, and the per-root `hashByChunkId` map. -/
structure PCAcc where
  plugin : Plugin
  comp : Compilation
  assets : String → Asset
  hashById : List (Nat × String)

/-- The warning text of src/index.js:213-219 for an asset-path mismatch. -/
def chunkAssetWarnMsg (cid : Nat) (computed : Option String)
    (firstFile : String) : String :=
  "Cannot determine asset for chunk " ++ toString cid ++ ", computed=" ++
    (match computed with | some p => p | none => "undefined") ++
    ", available=" ++ firstFile ++ ". Please report this full error message."

/-- The body of `processChunk`'s per-chunk loop (src/index.js:204-229): skip
chunks with no output files; resolve the representative asset from the
pre-pass table, falling back to the first file with a deduplicated warning
when the table disagrees with the chunk's file list; warn on hot-update
sources; rewrite the asset and record its new integrity under the chunk
id. -/
def processStep (digest : String → List Seg → String) (algos : List String)
    (g : Graph) (acc : PCAcc) (cid : Nat) : PCAcc :=
  if (g.files cid).length = 0 then acc
  else
    let computed := acc.comp.sriChunkAssets cid
    let ok : Bool := match computed with
      | some p => (g.files cid).contains p
      | none => false
    let sourcePath :=
      if ok then computed.getD "" else (g.files cid).headD ""
    let pc1 :=
      if ok then (acc.plugin, acc.comp)
      else warnOnce acc.plugin acc.comp
        (chunkAssetWarnMsg cid computed ((g.files cid).headD ""))
    let pc2 := warnIfHotUpdate pc1.1 pc1.2 (acc.assets sourcePath).source
    let r := replaceAsset digest algos acc.assets acc.hashById sourcePath
    { plugin := pc2.1, comp := pc2.2, assets := r.1,
      hashById := mapSet acc.hashById cid (r.2.integrity.getD "") }

/-- `processChunk` (src/index.js:197-230): walk the discovered chunk
sequence in reverse discovery order with a fresh `hashByChunkId` map. -/
def processChunk (digest : String → List Seg → String) (algos : List String)
    (g : Graph) (pl : Plugin) (c : Compilation) (assets : String → Asset)
    (root : Nat) : PCAcc :=
  (processOrder g root).foldl (processStep digest algos g)
    { plugin := pl, comp := c, assets := assets, hashById := [] }

/-- The body of `addMissingIntegrityHashes`'s loop (src/index.js:243-248):
skip an asset whose `integrity` property is truthy, otherwise attach a
freshly computed integrity value to it. -/
def addMissingStep (digest : String → List Seg → String) (algos : List String)
    (as : String → Asset) (assetKey : String) : String → Asset :=
  if truthy (as assetKey).integrity then as
  else fun p =>
    if p = assetKey then
      { source := (as assetKey).source,
        integrity := some (computeIntegrity digest algos (as assetKey).source) }
    else as p

/-- `addMissingIntegrityHashes` (src/index.js:240-249): for every asset key,
attach a freshly computed integrity value when the current one is falsy. -/
def addMissingIntegrityHashes (digest : String → List Seg → String)
    (algos : List String) (assetKeys : List String)
    (assets : String → Asset) : String → Asset :=
  assetKeys.foldl (addMissingStep digest algos) assets

/-- An HTML document tag: name and attribute map (insertion-ordered). -/
structure Tag where
  tagName : String
  attributes : List (String × String)
deriving DecidableEq, Repr

/-- Attribute lookup on a tag's attribute map. -/
def getAttr (attrs : List (String × String)) (k : String) : Option String :=
  (attrs.find? (fun p => p.1 == k)).map (fun p => p.2)

/-- `Object.prototype.hasOwnProperty` on the attribute map. -/
def hasAttr (attrs : List (String × String)) (k : String) : Bool :=
  attrs.any (fun p => p.1 == k)

/-- JavaScript property assignment on the attribute map: overwrite in
place if present, else append. -/
def setAttr (attrs : List (String × String)) (k v : String) :
    List (String × String) :=
  if hasAttr attrs k then
    attrs.map (fun p => if p.1 == k then (k, v) else p)
  else attrs ++ [(k, v)]

/-- Modelled from the spec (§4.5, `getTagSrc` lives in util.js which is not
under src/): the source/href attribute of a tag referencing a public URL. -/
def getTagSrc (tag : Tag) : String :=
  ((getAttr tag.attributes "src").orElse
    (fun _ => getAttr tag.attributes "href")).getD ""

/-- `hwpAssetPath` (src/index.js:150-152) with the external `path.relative`
modelled as stripping the configured public base path when it is a prefix
(spec §4.5: the URL relative to the configured public base path). -/
def hwpAssetPath (publicPath : String) (src : String) : String :=
  if publicPath.isPrefixOf src then
    (src.toList.drop publicPath.toList.length).asString
  else src

/-- Modelled from the spec (§4.5, `getIntegrityChecksumForAsset` lives in
util.js which is not under src/): look up the asset's integrity value,
computing it on demand if still missing. -/
def getIntegrityChecksumForAsset (digest : String → List Seg → String)
    (algos : List String) (assets : String → Asset) (src : String) : String :=
  match (assets src).integrity with
  | some s => s
  | none => computeIntegrity digest algos (assets src).source

/-- `processTag` (src/index.js:266-276): derive the internal asset path,
look up its integrity value, and only when the tag does not already carry
an `integrity` attribute set `integrity` and `crossorigin` (the configured
cross-origin policy, defaulting to anonymous). -/
def processTag (digest : String → List Seg → String) (algos : List String)
    (publicPath : String) (c : Compilation) (tag : Tag) : Tag :=
  let src := hwpAssetPath publicPath (getTagSrc tag)
  let integrity := getIntegrityChecksumForAsset digest algos c.assets src
  if hasAttr tag.attributes "integrity" then tag
  else
    let attrs1 := setAttr tag.attributes "integrity" integrity
    let attrs2 := setAttr attrs1 "crossorigin" (c.crossOriginLoading.getD "anonymous")
    { tag with attributes := attrs2 }

/-! ### Helper lemmas about the message machinery -/

theorem warnOnce_optionsValidated (pl : Plugin) (c : Compilation) (m : String) :
    ((warnOnce pl c m).1).optionsValidated = pl.optionsValidated := by
  unfold warnOnce emitMessageOnce
  dsimp only
  split <;> rfl

theorem warnOnce_options (pl : Plugin) (c : Compilation) (m : String) :
    ((warnOnce pl c m).1).options = pl.options := by
  unfold warnOnce emitMessageOnce
  dsimp only
  split <;> rfl

theorem warnOnce_errors (pl : Plugin) (c : Compilation) (m : String) :
    ((warnOnce pl c m).2).errors = c.errors := rfl

theorem warnStandardHashFunc_optionsValidated (pl : Plugin) (c : Compilation) :
    ((warnStandardHashFunc pl c).1).optionsValidated = pl.optionsValidated := by
  unfold warnStandardHashFunc
  split
  · rfl
  · split
    · rfl
    · exact warnOnce_optionsValidated _ _ _

theorem validateHashFuncNames_optionsValidated (supported : String → Bool)
    (pl : Plugin) (c : Compilation) :
    ((validateHashFuncNames supported pl c).1).optionsValidated =
      pl.optionsValidated := by
  unfold validateHashFuncNames
  split
  · rfl
  · dsimp only
    split
    · exact warnStandardHashFunc_optionsValidated _ _
    · rfl

/-- C9: the constructor throws for any argument that is neither null,
undefined, nor an object; null and undefined behave exactly like an empty
options object; and the resulting options carry `enabled` defaulting to
true unless the supplied object overrides it (`Object.assign` over the
`enabled: true` default). -/
theorem C9_constructor :
    (∀ rendered, SubresourceIntegrityPlugin (.nonObj rendered) =
      .error "webpack-subresource-integrity: argument must be an object") ∧
    SubresourceIntegrityPlugin .jsNull = SubresourceIntegrityPlugin (.obj none none) ∧
    SubresourceIntegrityPlugin .undef = SubresourceIntegrityPlugin (.obj none none) ∧
    (∀ en hfn, SubresourceIntegrityPlugin (.obj en hfn) =
      .ok { options := { enabled := en.getD true,
                         hashFuncNames := hfn.getD (.notArray "undefined") },
            emittedMessages := [], optionsValidated := false }) := by
  exact ⟨fun _ => rfl, rfl, rfl, fun _ _ => rfl⟩

/-- C10: `validateOptions` validates at most once per plugin instance:
every call leaves the `optionsValidated` latch set, and any call on an
instance whose latch is already set returns the plugin and the compilation
completely unchanged, emitting nothing. -/
theorem C10_validateOptions_once :
    (∀ supported pl c,
      ((validateOptions supported pl c).1).optionsValidated = true) ∧
    (∀ supported pl c, pl.optionsValidated = true →
      validateOptions supported pl c = (pl, c)) := by
  constructor
  · intro supported pl c
    unfold validateOptions
    by_cases hv : pl.optionsValidated
    · simp [hv]
    · simp only [hv, if_false, Bool.false_eq_true]
      rw [validateHashFuncNames_optionsValidated]
      split
      · rw [warnOnce_optionsValidated]
      · rfl
  · intro supported pl c h
    unfold validateOptions
    simp [h]

/-- C10 witness. -/
theorem C10_validateOptions_once_witness :
    validateOptions (fun _ => true)
      { options := { enabled := true, hashFuncNames := .arr [] },
        emittedMessages := [], optionsValidated := true }
      { warnings := [], errors := [], crossOriginLoading := none,
        assets := fun _ => { source := [], integrity := none },
        assetKeys := [], sriChunkAssets := fun _ => none } =
    ({ options := { enabled := true, hashFuncNames := .arr [] },
       emittedMessages := [], optionsValidated := true },
     { warnings := [], errors := [], crossOriginLoading := none,
       assets := fun _ => { source := [], integrity := none },
       assetKeys := [], sriChunkAssets := fun _ => none }) :=
  C10_validateOptions_once.2 (fun _ => true) _ _ rfl

/-! ### C4: message deduplication -/

/-- A plugin instance fresh out of the constructor (empty memo). -/
def freshPlugin : Plugin :=
  { options := { enabled := true, hashFuncNames := .arr [.str "sha256"] },
    emittedMessages := [], optionsValidated := false }

/-- A fresh, empty compilation (a new build). -/
def freshComp : Compilation :=
  { warnings := [], errors := [], crossOriginLoading := none,
    assets := fun _ => { source := [], integrity := none },
    assetKeys := [], sriChunkAssets := fun _ => none }

/-- C4 counterexample: the message-keyed memo is NOT scoped to a single
build.  `this.emittedMessages` is created once in the constructor and never
reset per compilation, so after build one emits a message, the same plugin
instance serving a second, completely fresh build does not emit it again:
the second build's warning list stays empty, contradicting the claim that
a fresh build starts with an empty memo and may emit the message again. -/
theorem C4_memo_counterexample :
    ((warnOnce freshPlugin freshComp "m").2).warnings =
      ["webpack-subresource-integrity: m"] ∧
    ((warnOnce (warnOnce freshPlugin freshComp "m").1 freshComp "m").2).warnings =
      [] := by
  constructor <;> rfl

/-- C4 (amended): identical messages passed to `warnOnce`/`errorOnce` are
emitted at most once per PLUGIN INSTANCE, not per build: within one build a
repeated message is appended at most once, and because the memo lives on
the plugin instance and is never reset, a message already in the memo is
emitted into no later compilation either, even a fresh one. -/
theorem C4_memo_instance_scoped :
    (∀ pl c m,
      ((warnOnce (warnOnce pl c m).1 (warnOnce pl c m).2 m).2).warnings =
        ((warnOnce pl c m).2).warnings) ∧
    (∀ pl c m,
      ((errorOnce (errorOnce pl c m).1 (errorOnce pl c m).2 m).2).errors =
        ((errorOnce pl c m).2).errors) ∧
    (∀ pl c m, m ∈ pl.emittedMessages → warnOnce pl c m = (pl, c)) ∧
    (∀ pl c m, m ∈ pl.emittedMessages → errorOnce pl c m = (pl, c)) := by
  have hmem : ∀ (pl : Plugin) (msgs : List String) (m : String),
      m ∈ ((emitMessageOnce pl msgs m).1).emittedMessages := by
    intro pl msgs m
    unfold emitMessageOnce
    split
    · assumption
    · simp
  have hskipW : ∀ (pl : Plugin) (c : Compilation) (m : String),
      m ∈ pl.emittedMessages → warnOnce pl c m = (pl, c) := by
    intro pl c m h
    simp [warnOnce, emitMessageOnce, h]
  have hskipE : ∀ (pl : Plugin) (c : Compilation) (m : String),
      m ∈ pl.emittedMessages → errorOnce pl c m = (pl, c) := by
    intro pl c m h
    simp [errorOnce, emitMessageOnce, h]
  refine ⟨?_, ?_, hskipW, hskipE⟩
  · intro pl c m
    rw [hskipW (warnOnce pl c m).1 (warnOnce pl c m).2 m (hmem pl c.warnings m)]
  · intro pl c m
    rw [hskipE (errorOnce pl c m).1 (errorOnce pl c m).2 m (hmem pl c.errors m)]

/-- C4 witness. -/
theorem C4_memo_instance_scoped_witness :
    warnOnce (warnOnce freshPlugin freshComp "m").1 freshComp "m" =
      ((warnOnce freshPlugin freshComp "m").1, freshComp) :=
  C4_memo_instance_scoped.2.2.1 _ _ "m" (by simp [warnOnce, emitMessageOnce, freshPlugin])

/-! ### Attribute-map lemmas for the tag annotator -/

theorem find_overwrite_self (ps : List (String × String)) (k v : String)
    (h : hasAttr ps k = true) :
    (ps.map (fun p => if p.1 == k then (k, v) else p)).find?
      (fun p => p.1 == k) = some (k, v) := by
  induction ps with
  | nil => simp [hasAttr] at h
  | cons p ps ih =>
    rcases hb : (p.1 == k) with hf | ht
    · have hps : hasAttr ps k = true := by
        simpa [hasAttr, hb] using h
      simpa [List.find?, hb] using ih hps
    · simp [List.find?, hb]

theorem find_overwrite_ne (ps : List (String × String)) (k k' v : String)
    (hne : k' ≠ k) :
    (ps.map (fun p => if p.1 == k then (k, v) else p)).find?
      (fun p => p.1 == k') = ps.find? (fun p => p.1 == k') := by
  induction ps with
  | nil => simp
  | cons p ps ih =>
    rcases hb : (p.1 == k) with hf | ht
    · rcases hb2 : (p.1 == k') with hf2 | ht2
      · simpa [List.find?, hb, hb2] using ih
      · simp [List.find?, hb, hb2]
    · have hp1 : p.1 = k := by simpa using hb
      have hb2 : (p.1 == k') = false := by
        simp [hp1]
        exact fun hc => hne hc.symm
      have hkk : (k == k') = false := by
        simp
        exact fun hc => hne hc.symm
      simpa [List.find?, hb, hb2, hkk] using ih

theorem hasAttr_false_find_none (ps : List (String × String)) (k : String)
    (h : hasAttr ps k = false) : ps.find? (fun p => p.1 == k) = none := by
  rw [List.find?_eq_none]
  intro x hx
  simp [hasAttr, List.any_eq_true] at h
  simpa using h x.1 x.2 hx

theorem getAttr_setAttr_self (attrs : List (String × String)) (k v : String) :
    getAttr (setAttr attrs k v) k = some v := by
  unfold setAttr
  split
  · rename_i h
    unfold getAttr
    rw [find_overwrite_self attrs k v h]
    rfl
  · rename_i h
    rw [Bool.not_eq_true] at h
    unfold getAttr
    rw [List.find?_append, hasAttr_false_find_none attrs k h]
    simp [List.find?]

theorem getAttr_setAttr_ne (attrs : List (String × String)) (k k' v : String)
    (hne : k' ≠ k) : getAttr (setAttr attrs k v) k' = getAttr attrs k' := by
  have hkk : (k == k') = false := by
    simp
    exact fun hc => hne hc.symm
  unfold setAttr
  split
  · unfold getAttr
    rw [find_overwrite_ne attrs k k' v hne]
  · unfold getAttr
    rw [List.find?_append]
    simp [List.find?, hkk]

/-- C6: a tag already carrying an `integrity` attribute is left entirely
unchanged by `processTag`; a tag without one gets `integrity` set to the
referenced asset's integrity value and `crossorigin` set to the configured
cross-origin policy, `anonymous` when none is configured. -/
theorem C6_processTag (digest : String → List Seg → String)
    (algos : List String) (publicPath : String) (c : Compilation) (tag : Tag) :
    (hasAttr tag.attributes "integrity" = true →
      processTag digest algos publicPath c tag = tag) ∧
    (hasAttr tag.attributes "integrity" = false →
      getAttr (processTag digest algos publicPath c tag).attributes "integrity" =
        some (getIntegrityChecksumForAsset digest algos c.assets
          (hwpAssetPath publicPath (getTagSrc tag))) ∧
      getAttr (processTag digest algos publicPath c tag).attributes "crossorigin" =
        some (c.crossOriginLoading.getD "anonymous")) := by
  constructor
  · intro h
    simp [processTag, h]
  · intro h
    unfold processTag
    simp only [h, Bool.false_eq_true, if_false]
    constructor
    · rw [getAttr_setAttr_ne _ _ _ _ (by decide)]
      exact getAttr_setAttr_self _ _ _
    · exact getAttr_setAttr_self _ _ _

/-- C6 witness: a script tag with no `integrity` attribute, an asset whose
integrity was already computed, and no configured cross-origin policy. -/
theorem C6_processTag_witness :
    getAttr (processTag (fun _ _ => "d") ["sha256"] ""
      { freshComp with assets := fun _ => { source := [], integrity := some "sha256-x" } }
      { tagName := "script", attributes := [("src", "a.js")] }).attributes
      "integrity" = some "sha256-x" ∧
    getAttr (processTag (fun _ _ => "d") ["sha256"] ""
      { freshComp with assets := fun _ => { source := [], integrity := some "sha256-x" } }
      { tagName := "script", attributes := [("src", "a.js")] }).attributes
      "crossorigin" = some "anonymous" :=
  (C6_processTag (fun _ _ => "d") ["sha256"] ""
    { freshComp with assets := fun _ => { source := [], integrity := some "sha256-x" } }
    { tagName := "script", attributes := [("src", "a.js")] }).2 rfl

/-! ### C5: addMissingIntegrityHashes -/

theorem append_sep_ne_empty (x sep y : String) (hsep : sep.length = 1) :
    x ++ sep ++ y ≠ "" := by
  intro hc
  have h1 : (x ++ sep ++ y).length = x.length + sep.length + y.length := by
    simp [String.length_append]
  rw [hc] at h1
  simp at h1
  omega

theorem truthy_some_of_ne (s : String) (h : s ≠ "") :
    truthy (some s) = true := by
  simp [truthy, h]

/-- With at least one configured algorithm, a computed integrity string is
nonempty. -/
theorem computeIntegrity_ne_empty (digest : String → List Seg → String)
    (algos : List String) (src : List Seg) (h : algos ≠ []) :
    computeIntegrity digest algos src ≠ "" := by
  cases algos with
  | nil => exact absurd rfl h
  | cons a rest =>
    unfold computeIntegrity
    cases rest with
    | nil =>
      simp only [List.map, joinSpace]
      exact append_sep_ne_empty a "-" (digest a src) (by decide)
    | cons b more =>
      simp only [List.map, joinSpace]
      exact append_sep_ne_empty _ " " _ (by decide)

/-- With at least one configured algorithm, a computed integrity string is
truthy. -/
theorem computeIntegrity_truthy (digest : String → List Seg → String)
    (algos : List String) (src : List Seg) (h : algos ≠ []) :
    truthy (some (computeIntegrity digest algos src)) = true :=
  truthy_some_of_ne _ (computeIntegrity_ne_empty digest algos src h)

theorem addMissingStep_preserves (digest : String → List Seg → String)
    (algos : List String) (as : String → Asset) (k p : String)
    (h : truthy ((as p).integrity) = true) :
    addMissingStep digest algos as k p = as p := by
  unfold addMissingStep
  split
  · rfl
  · rename_i hk
    by_cases hp : p = k
    · subst hp
      exact absurd h hk
    · simp [hp]

theorem addMissingStep_id (digest : String → List Seg → String)
    (algos : List String) (as : String → Asset) (k : String)
    (h : truthy ((as k).integrity) = true) :
    addMissingStep digest algos as k = as := by
  unfold addMissingStep
  simp [h]

theorem addMissingStep_truthy_at_key (digest : String → List Seg → String)
    (algos : List String) (as : String → Asset) (k : String)
    (halgos : algos ≠ []) :
    truthy ((addMissingStep digest algos as k k).integrity) = true := by
  unfold addMissingStep
  split
  · assumption
  · simp only [if_pos rfl]
    exact computeIntegrity_truthy digest algos _ halgos

theorem addMissing_preserves (digest : String → List Seg → String)
    (algos : List String) :
    ∀ (keys : List String) (assets : String → Asset) (p : String),
      truthy ((assets p).integrity) = true →
      addMissingIntegrityHashes digest algos keys assets p = assets p := by
  intro keys
  induction keys with
  | nil => intro assets p _; rfl
  | cons k rest ih =>
    intro assets p h
    have hstep := addMissingStep_preserves digest algos assets k p h
    have h2 : truthy ((addMissingStep digest algos assets k p).integrity) = true := by
      rw [hstep]; exact h
    calc addMissingIntegrityHashes digest algos (k :: rest) assets p
        = addMissingIntegrityHashes digest algos rest
            (addMissingStep digest algos assets k) p := rfl
      _ = addMissingStep digest algos assets k p := ih _ p h2
      _ = assets p := hstep

theorem addMissing_sets (digest : String → List Seg → String)
    (algos : List String) (halgos : algos ≠ []) :
    ∀ (keys : List String) (assets : String → Asset) (k : String),
      k ∈ keys →
      truthy ((addMissingIntegrityHashes digest algos keys assets k).integrity) =
        true := by
  intro keys
  induction keys with
  | nil => intro assets k hk; simp at hk
  | cons k0 rest ih =>
    intro assets k hk
    rcases List.mem_cons.mp hk with heq | hmem
    · subst heq
      have h1 := addMissingStep_truthy_at_key digest algos assets k halgos
      have h2 := addMissing_preserves digest algos rest
        (addMissingStep digest algos assets k) k h1
      show truthy ((addMissingIntegrityHashes digest algos rest
        (addMissingStep digest algos assets k) k).integrity) = true
      rw [h2]
      exact h1
    · exact ih _ k hmem

theorem addMissing_id (digest : String → List Seg → String)
    (algos : List String) :
    ∀ (keys : List String) (assets : String → Asset),
      (∀ k ∈ keys, truthy ((assets k).integrity) = true) →
      addMissingIntegrityHashes digest algos keys assets = assets := by
  intro keys
  induction keys with
  | nil => intro assets _; rfl
  | cons k0 rest ih =>
    intro assets hall
    have h0 := addMissingStep_id digest algos assets k0 (hall k0 (by simp))
    show addMissingIntegrityHashes digest algos rest
      (addMissingStep digest algos assets k0) = assets
    rw [h0]
    exact ih assets (fun k hk => hall k (by simp [hk]))

/-- C5: with a (nonempty) validated algorithm list, after one run of
`addMissingIntegrityHashes` every asset in the key set has a (truthy)
integrity value; assets that already have one are left untouched (not
recomputed, the loop's falsy-guard skips them); and a second run is the
identity, yielding the same integrity value on every asset as one run. -/
theorem C5_addMissingIntegrityHashes (digest : String → List Seg → String)
    (algos : List String) (keys : List String) (assets : String → Asset)
    (halgos : algos ≠ []) :
    (∀ k ∈ keys,
      truthy ((addMissingIntegrityHashes digest algos keys assets k).integrity) =
        true) ∧
    (∀ p, truthy ((assets p).integrity) = true →
      addMissingIntegrityHashes digest algos keys assets p = assets p) ∧
    addMissingIntegrityHashes digest algos keys
        (addMissingIntegrityHashes digest algos keys assets) =
      addMissingIntegrityHashes digest algos keys assets := by
  refine ⟨fun k hk => addMissing_sets digest algos halgos keys assets k hk,
          fun p hp => addMissing_preserves digest algos keys assets p hp,
          ?_⟩
  exact addMissing_id digest algos keys _
    (fun k hk => addMissing_sets digest algos halgos keys assets k hk)

/-- C5 witness: one key, no pre-existing integrity value. -/
theorem C5_addMissingIntegrityHashes_witness :
    truthy ((addMissingIntegrityHashes (fun _ _ => "d") ["sha256"] ["a.js"]
      (fun _ => { source := [Seg.lit "x"], integrity := none }) "a.js").integrity) =
      true :=
  (C5_addMissingIntegrityHashes (fun _ _ => "d") ["sha256"] ["a.js"]
    (fun _ => { source := [Seg.lit "x"], integrity := none })
    (by decide)).1 "a.js" (by simp)

/-! ### C3: hash function name validation -/

theorem everyValidate_first_bad (supported : String → Bool) (c : Compilation)
    (bad : HashItem) (rest : List HashItem) (hbad : itemOk supported bad = false) :
    ∀ (pre : List HashItem), (∀ it ∈ pre, itemOk supported it = true) →
      everyValidate supported c (pre ++ bad :: rest) =
        (error c (itemFailMsg bad), false) := by
  intro pre
  induction pre with
  | nil =>
    intro _
    show everyValidate supported c (bad :: rest) = _
    unfold everyValidate validateHashFuncName
    simp [hbad]
  | cons it pre' ih =>
    intro hpre
    have hit : itemOk supported it = true := hpre it (by simp)
    show everyValidate supported c (it :: (pre' ++ bad :: rest)) = _
    unfold everyValidate validateHashFuncName
    simp only [hit, if_true]
    exact ih (fun x hx => hpre x (by simp [hx]))

theorem validateHashFuncNames_first_bad (supported : String → Bool)
    (pl : Plugin) (c : Compilation) (pre : List HashItem) (bad : HashItem)
    (rest : List HashItem)
    (hpre : ∀ it ∈ pre, itemOk supported it = true)
    (hbad : itemOk supported bad = false)
    (hfn : pl.options.hashFuncNames = .arr (pre ++ bad :: rest)) :
    validateHashFuncNames supported pl c =
      ({ pl with options := { pl.options with enabled := false } },
       error c (itemFailMsg bad)) := by
  unfold validateHashFuncNames
  rw [hfn]
  dsimp only
  rw [everyValidate_first_bad supported c bad rest hbad pre hpre]
  simp

/-- C3 counterexample: with `hashFuncNames = ["foo", "bar"]` and a
cryptographic provider supporting neither name, validation emits exactly
ONE error (for the first bad name only), not one per bad name:
`Array.prototype.every` short-circuits at the first failing item, so the
second unsupported name never receives its own diagnostic. -/
theorem C3_one_error_counterexample :
    ((validateHashFuncNames (fun _ => false)
      { options := { enabled := true,
                     hashFuncNames := .arr [.str "foo", .str "bar"] },
        emittedMessages := [], optionsValidated := false }
      freshComp).2).errors =
      ["webpack-subresource-integrity: Cannot use hash function foo: unsupported"] := by
  rw [validateHashFuncNames_first_bad (fun _ => false) _ freshComp []
    (.str "foo") [.str "bar"] (by simp) rfl rfl]
  rfl

/-- C3 (amended): when `options.hashFuncNames` is an array containing an
unsupported (or non-string) name, validation detects it eagerly at
configuration-validation time — inside `validateOptions`, before any asset
is hashed — and disables the feature for the whole build
(`options.enabled` becomes false); but only the FIRST failing name in the
list receives a diagnostic (appended to the compilation's errors), because
`every` stops at the first failure; later bad names get no error of their
own. -/
theorem C3_first_bad_disables (supported : String → Bool) (pl : Plugin)
    (c : Compilation) (pre : List HashItem) (bad : HashItem)
    (rest : List HashItem)
    (hpre : ∀ it ∈ pre, itemOk supported it = true)
    (hbad : itemOk supported bad = false)
    (hfn : pl.options.hashFuncNames = .arr (pre ++ bad :: rest))
    (hval : pl.optionsValidated = false) :
    ((validateHashFuncNames supported pl c).1).options.enabled = false ∧
    ((validateHashFuncNames supported pl c).2).errors =
      c.errors ++ ["webpack-subresource-integrity: " ++ itemFailMsg bad] ∧
    ((validateOptions supported pl c).1).options.enabled = false ∧
    ((validateOptions supported pl c).2).errors =
      c.errors ++ ["webpack-subresource-integrity: " ++ itemFailMsg bad] := by
  have hmain := validateHashFuncNames_first_bad supported pl c pre bad rest
    hpre hbad hfn
  have hvo : ∃ pl2 c2, validateOptions supported pl c =
      validateHashFuncNames supported pl2 c2 ∧
      pl2.options.hashFuncNames = pl.options.hashFuncNames ∧
      c2.errors = c.errors := by
    unfold validateOptions
    simp only [hval, Bool.false_eq_true, if_false]
    split
    · exact ⟨_, _, rfl, by rw [warnOnce_options], warnOnce_errors _ _ _⟩
    · exact ⟨_, _, rfl, rfl, rfl⟩
  obtain ⟨pl2, c2, hvo, hfn2, herr2⟩ := hvo
  have hmain2 := validateHashFuncNames_first_bad supported pl2 c2 pre bad rest
    hpre hbad (hfn2.trans hfn)
  refine ⟨by rw [hmain], by rw [hmain]; rfl, ?_, ?_⟩
  · rw [hvo, hmain2]
  · rw [hvo, hmain2]
    show (error c2 (itemFailMsg bad)).errors = _
    rw [error, emitMessage]
    dsimp only
    rw [herr2]

/-- C3 witness. -/
theorem C3_first_bad_disables_witness :
    ((validateHashFuncNames (fun s => s == "sha256")
      { options := { enabled := true,
                     hashFuncNames := .arr [.str "sha256", .str "md999"] },
        emittedMessages := [], optionsValidated := false }
      freshComp).1).options.enabled = false :=
  (C3_first_bad_disables (fun s => s == "sha256") _ freshComp [.str "sha256"]
    (.str "md999") [] (by simp [itemOk]) (by simp [itemOk]) rfl rfl).1

/-! ### C2: cycle termination and at-most-once traversal -/

/-- The visited list of the traversal never acquires duplicates: a chunk is
pushed only when it is not yet in the visited set. -/
theorem dfsAux_nodup (g : Nat → List Nat) (univ : List Nat) :
    ∀ (fuel : Nat) (vis stack : List Nat),
      (univ.filter (fun x => decide (x ∉ vis))).length ≤ fuel →
      vis.Nodup → (dfsAux g univ vis stack).Nodup := by
  intro fuel
  induction fuel with
  | zero =>
    intro vis stack hle hnd
    induction stack with
    | nil => simpa [dfsAux] using hnd
    | cons u rest ihs =>
      rw [dfsAux]
      split
      · exact ihs
      · rename_i hcond
        push_neg at hcond
        exfalso
        have hmem : u ∈ univ.filter (fun x => decide (x ∉ vis)) := by
          simp only [List.mem_filter, decide_eq_true_eq]
          exact ⟨hcond.2, hcond.1⟩
        have hpos : 0 < (univ.filter (fun x => decide (x ∉ vis))).length :=
          List.length_pos_of_mem hmem
        omega
  | succ f ihf =>
    intro vis stack hle hnd
    induction stack with
    | nil => simpa [dfsAux] using hnd
    | cons u rest ihs =>
      rw [dfsAux]
      split
      · exact ihs
      · rename_i hcond
        push_neg at hcond
        apply ihf
        · have hlt := filter_not_mem_snoc_lt univ vis u hcond.1 hcond.2
          omega
        · exact List.Nodup.append hnd (List.nodup_singleton u)
            (by simp [List.disjoint_singleton]; exact hcond.1)

/-- The discovered chunk sequence contains no chunk id twice. -/
theorem findChunks_nodup (g : Graph) (root : Nat) :
    (findChunks g root).Nodup := by
  unfold findChunks
  exact dfsAux_nodup g.children g.univ _ [] [root] (le_refl _) List.nodup_nil

/-- C2: for every chunk graph containing a cycle of runtime-load edges,
`processChunk`'s traversal sequence (the reversed discovery sequence it
folds over) mentions each chunk id at most once, so each chunk's asset is
rewritten and its integrity recorded into the per-root map at most once.
Termination is witnessed by `dfsAux` itself being a total function of the
model, defined by well-founded recursion on the shrinking unvisited set —
the visited-set guard is exactly what makes the recursion well-founded on
cyclic graphs. -/
theorem C2_cycle_at_most_once (g : Graph) (root a b : Nat)
    (_hab : b ∈ g.children a) (_hba : a ∈ g.children b) :
    ∀ cid, (processOrder g root).count cid ≤ 1 := by
  intro cid
  have hnd : (processOrder g root).Nodup := by
    unfold processOrder
    exact List.nodup_reverse.mpr (findChunks_nodup g root)
  exact List.nodup_iff_count_le_one.mp hnd cid

/-- The two-chunk cyclic graph: 0 loads 1 and 1 loads 0. -/
def cycleGraph : Graph :=
  { children := fun n => if n = 0 then [1] else if n = 1 then [0] else [],
    files := fun n => if n = 0 then ["a.js"] else if n = 1 then ["b.js"] else [],
    univ := [0, 1] }

/-- C2 witness: on the concrete cycle 0 ⇄ 1, the traversal discovers
exactly [0, 1] (each chunk once, then the cycle edge back to 0 is cut by
the visited set) and every id occurs at most once. -/
theorem C2_cycle_at_most_once_witness :
    findChunks cycleGraph 0 = [0, 1] ∧
    (processOrder cycleGraph 0).count 0 ≤ 1 ∧
    (processOrder cycleGraph 0).count 1 ≤ 1 :=
  ⟨by simp [findChunks, cycleGraph, dfsAux],
   C2_cycle_at_most_once cycleGraph 0 0 1 (by simp [cycleGraph])
     (by simp [cycleGraph]) 0,
   C2_cycle_at_most_once cycleGraph 0 0 1 (by simp [cycleGraph])
     (by simp [cycleGraph]) 1⟩

/-! ### C7: chunks with no output files -/

theorem find_overwrite_ne_nat (k k' : Nat) (v : String) (hne : k' ≠ k) :
    ∀ (ps : List (Nat × String)),
      (ps.map (fun p => if p.1 == k then (k, v) else p)).find?
        (fun p => p.1 == k') = ps.find? (fun p => p.1 == k') := by
  intro ps
  induction ps with
  | nil => simp
  | cons p ps ih =>
    rcases hb : (p.1 == k) with hf | ht
    · rcases hb2 : (p.1 == k') with hf2 | ht2
      · simpa [List.find?, hb, hb2] using ih
      · simp [List.find?, hb, hb2]
    · have hp1 : p.1 = k := by simpa using hb
      have hb2 : (p.1 == k') = false := by
        simp [hp1]
        exact fun hc => hne hc.symm
      have hkk : ((k, v).1 == k') = false := by
        simp
        exact fun hc => hne hc.symm
      simpa [List.find?, hb, hb2, hkk] using ih

theorem lookupId_mapSet_ne (m : List (Nat × String)) (k : Nat) (v : String)
    (k' : Nat) (hne : k' ≠ k) : lookupId (mapSet m k v) k' = lookupId m k' := by
  unfold mapSet
  split
  · unfold lookupId
    rw [find_overwrite_ne_nat k k' v hne m]
  · unfold lookupId
    rw [List.find?_append]
    have hkk : ((k, v).1 == k') = false := by
      simp
      exact fun hc => hne hc.symm
    simp [List.find?, hkk]

theorem processStep_empty_files (digest : String → List Seg → String)
    (algos : List String) (g : Graph) (acc : PCAcc) (cid : Nat)
    (h : g.files cid = []) : processStep digest algos g acc cid = acc := by
  unfold processStep
  simp [h]

theorem foldl_processStep_no_entry (digest : String → List Seg → String)
    (algos : List String) (g : Graph) (cid : Nat) (hf : g.files cid = []) :
    ∀ (ids : List Nat) (acc : PCAcc), lookupId acc.hashById cid = none →
      lookupId ((ids.foldl (processStep digest algos g) acc).hashById) cid =
        none := by
  intro ids
  induction ids with
  | nil => intro acc h; exact h
  | cons i rest ih =>
    intro acc h
    show lookupId ((rest.foldl (processStep digest algos g)
      (processStep digest algos g acc i)).hashById) cid = none
    apply ih
    by_cases hic : i = cid
    · subst hic
      rw [processStep_empty_files digest algos g acc i hf]
      exact h
    · unfold processStep
      by_cases hfi : (g.files i).length = 0
      · rw [if_pos hfi]
        exact h
      · rw [if_neg hfi]
        dsimp only
        rw [lookupId_mapSet_ne _ _ _ _ (fun hc => hic hc.symm)]
        exact h

/-- C7: a chunk with an empty output-file list encountered during
`processChunk`'s traversal is skipped entirely — the loop body returns the
accumulator unchanged (no asset rewritten, no diagnostic, no throw) — and
no entry for its chunk id ever appears in the per-root integrity map. -/
theorem C7_empty_files_skipped (digest : String → List Seg → String)
    (algos : List String) (g : Graph) (cid : Nat) (hf : g.files cid = []) :
    (∀ acc, processStep digest algos g acc cid = acc) ∧
    (∀ pl c assets root,
      lookupId ((processChunk digest algos g pl c assets root).hashById) cid =
        none) := by
  constructor
  · intro acc
    exact processStep_empty_files digest algos g acc cid hf
  · intro pl c assets root
    unfold processChunk
    exact foldl_processStep_no_entry digest algos g cid hf _ _ rfl

/-- The chain graph 0 → 1 where chunk 1 has no output files. -/
def emptyFileGraph : Graph :=
  { children := fun n => if n = 0 then [1] else [],
    files := fun n => if n = 0 then ["a.js"] else [],
    univ := [0, 1] }

/-- C7 witness: processing root 0 of a graph whose child chunk 1 has no
files leaves no integrity-map entry for chunk 1. -/
theorem C7_empty_files_skipped_witness :
    lookupId ((processChunk (fun _ _ => "d") ["sha256"] emptyFileGraph
      freshPlugin freshComp (fun _ => { source := [], integrity := none })
      0).hashById) 1 = none :=
  (C7_empty_files_skipped (fun _ _ => "d") ["sha256"] emptyFileGraph 1
    (by simp [emptyFileGraph])).2 freshPlugin freshComp _ 0

/-! ### C8: asset-path mismatch fallback -/

theorem find_overwrite_self_nat (k : Nat) (v : String) :
    ∀ (m : List (Nat × String)), m.any (fun p => p.1 == k) = true →
      (m.map (fun p => if p.1 == k then (k, v) else p)).find?
        (fun p => p.1 == k) = some (k, v) := by
  intro m
  induction m with
  | nil => simp
  | cons q qs ih =>
    intro hany
    rcases hb : (q.1 == k) with hf | ht
    · have hqs : qs.any (fun p => p.1 == k) = true := by
        simpa [List.any_cons, hb] using hany
      simpa [List.find?, hb] using ih hqs
    · simp [List.find?, hb]

theorem any_false_find_none_nat (m : List (Nat × String)) (k : Nat)
    (h : m.any (fun p => p.1 == k) = false) :
    m.find? (fun p => p.1 == k) = none := by
  rw [List.find?_eq_none]
  intro x hx
  simp [List.any_eq_true] at h
  simpa using h x.1 x.2 hx

theorem lookupId_mapSet_self (m : List (Nat × String)) (k : Nat) (v : String) :
    lookupId (mapSet m k v) k = some v := by
  unfold mapSet
  split
  · rename_i hany
    unfold lookupId
    rw [find_overwrite_self_nat k v m hany]
    rfl
  · rename_i hany
    rw [Bool.not_eq_true] at hany
    unfold lookupId
    rw [List.find?_append, any_false_find_none_nat m k hany]
    simp [List.find?]

/-- C8: when the pre-pass table entry for a child chunk (`sriChunkAssets`)
is not among that chunk's own output files, the loop body of `processChunk`
emits a deduplicated warning into the compilation's warnings (the errors
list is untouched), falls back to the chunk's first listed output file as
the representative asset, and continues normally: that file's asset is
rewritten (copy-on-write) and the chunk's freshly computed integrity is
recorded in the per-root integrity map. -/
theorem C8_asset_path_fallback (digest : String → List Seg → String)
    (algos : List String) (g : Graph) (acc : PCAcc) (cid : Nat) (p : String)
    (hfe : g.files cid ≠ [])
    (hsri : acc.comp.sriChunkAssets cid = some p)
    (hnot : p ∉ g.files cid)
    (hmemo : chunkAssetWarnMsg cid (some p) ((g.files cid).headD "") ∉
      acc.plugin.emittedMessages)
    (hhot : (acc.assets ((g.files cid).headD "")).source.any segHasHotUpdate =
      false) :
    (processStep digest algos g acc cid).comp.warnings =
      acc.comp.warnings ++ ["webpack-subresource-integrity: " ++
        chunkAssetWarnMsg cid (some p) ((g.files cid).headD "")] ∧
    (processStep digest algos g acc cid).comp.errors = acc.comp.errors ∧
    (processStep digest algos g acc cid).assets =
      (replaceAsset digest algos acc.assets acc.hashById
        ((g.files cid).headD "")).1 ∧
    lookupId (processStep digest algos g acc cid).hashById cid =
      some ((replaceAsset digest algos acc.assets acc.hashById
        ((g.files cid).headD "")).2.integrity.getD "") := by
  have hl : ¬((g.files cid).length = 0) := by
    simpa [List.length_eq_zero] using hfe
  have hcont : ((g.files cid).contains p) = false := by
    simpa using hnot
  unfold processStep
  rw [if_neg hl]
  dsimp only
  rw [hsri]
  dsimp only
  simp only [hcont, Bool.false_eq_true, if_false]
  unfold warnIfHotUpdate
  rw [if_neg (by rw [hhot]; exact Bool.false_ne_true)]
  unfold warnOnce emitMessageOnce
  rw [if_neg hmemo]
  dsimp only
  refine ⟨?_, ?_, ?_, ?_⟩
  · trivial
  · trivial
  · trivial
  · exact lookupId_mapSet_self _ _ _

/-- A two-file chunk whose pre-pass table entry points at a file that is
not among its output files. -/
def c8Graph : Graph :=
  { children := fun _ => [], univ := [0],
    files := fun n => if n = 0 then ["a.js", "b.js"] else [] }

/-- The accumulator for the C8 witness. -/
def c8Acc : PCAcc :=
  { plugin := freshPlugin,
    comp := { freshComp with
      sriChunkAssets := fun n => if n = 0 then some "zz.js" else none },
    assets := fun _ => { source := [], integrity := none },
    hashById := [] }

/-- C8 witness: the mismatch warning is emitted and chunk 0 is processed
against its first file. -/
theorem C8_asset_path_fallback_witness :
    (processStep (fun _ _ => "d") ["sha256"] c8Graph c8Acc 0).comp.warnings =
      ["webpack-subresource-integrity: " ++
        chunkAssetWarnMsg 0 (some "zz.js") "a.js"] := by
  have h := (C8_asset_path_fallback (fun _ _ => "d") ["sha256"] c8Graph c8Acc 0
    "zz.js" (by simp [c8Graph]) rfl (by simp [c8Graph])
    (by simp [c8Acc, freshPlugin]) rfl).1
  simpa [c8Acc, c8Graph, freshComp] using h

/-! ### List lemmas for the placeholder replacement argument -/

theorem idxOf_get (m : Seg) :
    ∀ (l : List Seg) (i : Nat), idxOf l m = some i → l.get? i = some m := by
  intro l
  induction l with
  | nil => intro i h; simp [idxOf] at h
  | cons x xs ih =>
    intro i h
    unfold idxOf at h
    split at h
    · rename_i hx
      cases h
      simpa [List.get?] using hx
    · rcases Option.map_eq_some'.mp h with ⟨j, hj, hji⟩
      subst hji
      simpa [List.get?] using ih j hj

theorem idxOf_exists_of_count (m : Seg) :
    ∀ (l : List Seg), 0 < countSeg l m → ∃ i, idxOf l m = some i := by
  intro l
  induction l with
  | nil => intro h; simp [countSeg] at h
  | cons x xs ih =>
    intro h
    by_cases hx : x = m
    · exact ⟨0, by simp [idxOf, hx]⟩
    · have hxs : 0 < countSeg xs m := by
        simpa [countSeg, hx] using h
      obtain ⟨j, hj⟩ := ih hxs
      exact ⟨j + 1, by simp [idxOf, hx, hj]⟩

theorem get?_set_ne_idx (y : Seg) :
    ∀ (l : List Seg) (i j : Nat), i ≠ j → (l.set j y).get? i = l.get? i := by
  intro l
  induction l with
  | nil => intro i j _; simp
  | cons x xs ih =>
    intro i j hij
    cases j with
    | zero =>
      cases i with
      | zero => exact absurd rfl hij
      | succ i2 => simp [List.set, List.get?]
    | succ j2 =>
      cases i with
      | zero => simp [List.set, List.get?]
      | succ i2 =>
        simp only [List.set, List.get?]
        exact ih i2 j2 (fun hc => hij (by rw [hc]))

theorem countSeg_set_other (y m : Seg) (hy : y ≠ m) :
    ∀ (l : List Seg) (i : Nat), l.get? i ≠ some m →
      countSeg (l.set i y) m = countSeg l m := by
  intro l
  induction l with
  | nil => intro i _; simp
  | cons x xs ih =>
    intro i hne
    cases i with
    | zero =>
      have hx : x ≠ m := by
        intro hc
        exact hne (by simp [List.get?, hc])
      simp [List.set, countSeg, hy, hx]
    | succ i2 =>
      have hne2 : xs.get? i2 ≠ some m := by
        simpa [List.get?] using hne
      simp only [List.set, countSeg]
      rw [ih i2 hne2]

theorem countSeg_pos_of_get? (m : Seg) :
    ∀ (l : List Seg) (i : Nat), l.get? i = some m → 0 < countSeg l m := by
  intro l
  induction l with
  | nil => intro i h; simp [List.get?] at h
  | cons x xs ih =>
    intro i h
    cases i with
    | zero =>
      have hx : x = m := by simpa [List.get?] using h
      simp [countSeg, hx]
    | succ i2 =>
      have h2 : xs.get? i2 = some m := by simpa [List.get?] using h
      have := ih i2 h2
      simp only [countSeg]
      omega

theorem countSeg_set_hit (y m : Seg) (hy : y ≠ m) :
    ∀ (l : List Seg) (i : Nat), l.get? i = some m →
      countSeg (l.set i y) m = countSeg l m - 1 := by
  intro l
  induction l with
  | nil => intro i h; simp [List.get?] at h
  | cons x xs ih =>
    intro i h
    cases i with
    | zero =>
      have hx : x = m := by simpa [List.get?] using h
      simp [List.set, countSeg, hy, hx]
    | succ i2 =>
      have h2 : xs.get? i2 = some m := by simpa [List.get?] using h
      have hpos := countSeg_pos_of_get? m xs i2 h2
      have hih := ih i2 h2
      simp only [List.set, countSeg]
      omega

theorem mem_set_self_seg (y : Seg) :
    ∀ (l : List Seg) (i : Nat), i < l.length → y ∈ l.set i y := by
  intro l
  induction l with
  | nil => intro i h; simp at h
  | cons x xs ih =>
    intro i h
    cases i with
    | zero => simp [List.set]
    | succ i2 =>
      have h2 : i2 < xs.length := by simpa using h
      simp only [List.set]
      exact List.mem_cons_of_mem x (ih i2 h2)

theorem idxOf_lt_length (m : Seg) (l : List Seg) (i : Nat)
    (h : idxOf l m = some i) : i < l.length :=
  List.get?_eq_some.mp (idxOf_get m l i h) |>.1

/-- Applying the recorded entries for two distinct chunks `c` then `b` to a
source that contains `b`'s marker exactly once (positions always computed
against the original source, as `replaceAsset` does) yields a source that
contains `b`'s integrity literal and no occurrence of `b`'s marker. -/
theorem replace_chain_two (algos : List String) (b c : Nat)
    (hbs hcs : String) (hbc : b ≠ c) (oldS : List Seg)
    (hcount : countSeg oldS (makePlaceholder algos b) = 1) :
    Seg.lit hbs ∈
      applyEntry algos oldS (applyEntry algos oldS oldS (c, hcs)) (b, hbs) ∧
    countSeg
      (applyEntry algos oldS (applyEntry algos oldS oldS (c, hcs)) (b, hbs))
      (makePlaceholder algos b) = 0 := by
  have hmne : makePlaceholder algos c ≠ makePlaceholder algos b := by
    simp only [makePlaceholder, ne_eq, Seg.marker.injEq, not_and]
    exact fun _ hc => hbc hc.symm
  obtain ⟨i, hi⟩ := idxOf_exists_of_count (makePlaceholder algos b) oldS
    (by omega)
  have hgi := idxOf_get (makePlaceholder algos b) oldS i hi
  have hlitb : Seg.lit hbs ≠ makePlaceholder algos b := by
    simp [makePlaceholder]
  rcases hj : idxOf oldS (makePlaceholder algos c) with _ | j
  · have hacc1 : applyEntry algos oldS oldS (c, hcs) = oldS := by
      simp [applyEntry, hj]
    rw [hacc1]
    have hstep : applyEntry algos oldS oldS (b, hbs) =
        oldS.set i (Seg.lit hbs) := by
      simp [applyEntry, hi]
    rw [hstep]
    refine ⟨mem_set_self_seg _ oldS i (idxOf_lt_length _ oldS i hi), ?_⟩
    rw [countSeg_set_hit (Seg.lit hbs) (makePlaceholder algos b) hlitb oldS i hgi,
      hcount]
  · have hgj := idxOf_get (makePlaceholder algos c) oldS j hj
    have hij : i ≠ j := by
      intro hc
      rw [hc, hgj] at hgi
      exact hmne (Option.some.inj hgi)
    have hacc1 : applyEntry algos oldS oldS (c, hcs) =
        oldS.set j (Seg.lit hcs) := by
      simp [applyEntry, hj]
    have hstep : applyEntry algos oldS (oldS.set j (Seg.lit hcs)) (b, hbs) =
        (oldS.set j (Seg.lit hcs)).set i (Seg.lit hbs) := by
      simp [applyEntry, hi]
    rw [hacc1, hstep]
    have hget1 : (oldS.set j (Seg.lit hcs)).get? i =
        some (makePlaceholder algos b) := by
      rw [get?_set_ne_idx _ oldS i j hij]
      exact hgi
    have hcnt1 : countSeg (oldS.set j (Seg.lit hcs))
        (makePlaceholder algos b) = 1 := by
      rw [countSeg_set_other (Seg.lit hcs) (makePlaceholder algos b)
        (by simp [makePlaceholder]) oldS j (by rw [hgj]; simp [hmne]), hcount]
    constructor
    · apply mem_set_self_seg
      rw [List.length_set]
      exact idxOf_lt_length _ oldS i hi
    · rw [countSeg_set_hit (Seg.lit hbs) (makePlaceholder algos b) hlitb _ i
        hget1, hcnt1]

theorem warnIfHotUpdate_sriChunkAssets (pl : Plugin) (c : Compilation)
    (src : List Seg) :
    ((warnIfHotUpdate pl c src).2).sriChunkAssets = c.sriChunkAssets := by
  unfold warnIfHotUpdate
  split <;> rfl

/-- The loop body of `processChunk` on a chunk whose pre-pass table entry
is consistent with its file list: no fallback warning, the asset at the
resolved path is rewritten, and the chunk's integrity is recorded. -/
theorem processStep_clean (digest : String → List Seg → String)
    (algos : List String) (g : Graph) (acc : PCAcc) (cid : Nat) (p : String)
    (hsri : acc.comp.sriChunkAssets cid = some p) (hmem : p ∈ g.files cid) :
    processStep digest algos g acc cid =
      { plugin := (warnIfHotUpdate acc.plugin acc.comp (acc.assets p).source).1,
        comp := (warnIfHotUpdate acc.plugin acc.comp (acc.assets p).source).2,
        assets := (replaceAsset digest algos acc.assets acc.hashById p).1,
        hashById := mapSet acc.hashById cid
          ((replaceAsset digest algos acc.assets acc.hashById
            p).2.integrity.getD "") } := by
  have hl : ¬((g.files cid).length = 0) := by
    have := List.length_pos_of_mem hmem
    omega
  have hcont : ((g.files cid).contains p) = true := by simpa using hmem
  unfold processStep
  rw [if_neg hl]
  dsimp only
  rw [hsri]
  dsimp only
  simp only [hcont, if_true]
  rfl

/-- C1: for a chain graph A → B → C of runtime-load edges, `processChunk A`
walks the children in reverse discovery order `[C, B, A]` — hashing C's
asset before B's and B's before A's, each child's integrity entering the
per-root integrity map before its parent is rewritten — and afterwards A's
asset bytes contain B's actual recorded integrity string while no
occurrence of B's placeholder marker remains. -/
theorem C1_chain_order_and_bytes (digest : String → List Seg → String)
    (algos : List String) (g : Graph) (a b c : Nat) (fa fb fc : String)
    (pl : Plugin) (comp : Compilation) (assets0 : String → Asset)
    (hab : a ≠ b) (hbc : b ≠ c) (hac : a ≠ c)
    (hca : g.children a = [b]) (hcb : g.children b = [c])
    (hcc : g.children c = [])
    (hua : a ∈ g.univ) (hub : b ∈ g.univ) (huc : c ∈ g.univ)
    (hsa : comp.sriChunkAssets a = some fa) (hma : fa ∈ g.files a)
    (hsb : comp.sriChunkAssets b = some fb) (hmb : fb ∈ g.files b)
    (hsc : comp.sriChunkAssets c = some fc) (hmc : fc ∈ g.files c)
    (hfab : fa ≠ fb) (hfac : fa ≠ fc)
    (hcount : countSeg (assets0 fa).source (makePlaceholder algos b) = 1) :
    processOrder g a = [c, b, a] ∧
    ∃ hB, lookupId (processChunk digest algos g pl comp assets0 a).hashById b
        = some hB ∧
      Seg.lit hB ∈
        ((processChunk digest algos g pl comp assets0 a).assets fa).source ∧
      countSeg ((processChunk digest algos g pl comp assets0 a).assets
        fa).source (makePlaceholder algos b) = 0 := by
  have horder : processOrder g a = [c, b, a] := by
    simp [processOrder, findChunks, dfsAux, hca, hcb, hcc, hua, hub, huc,
      hab, hbc, hac, hab.symm, hbc.symm, hac.symm]
  refine ⟨horder, ?_⟩
  have hfold : processChunk digest algos g pl comp assets0 a =
      processStep digest algos g (processStep digest algos g
        (processStep digest algos g
          { plugin := pl, comp := comp, assets := assets0, hashById := [] } c)
        b) a := by
    unfold processChunk
    rw [horder]
    rfl
  rw [hfold]
  set acc0 : PCAcc :=
    { plugin := pl, comp := comp, assets := assets0, hashById := [] }
    with hacc0
  set s1 := processStep digest algos g acc0 c with hs1
  set s2 := processStep digest algos g s1 b with hs2
  have e1 := processStep_clean digest algos g acc0 c fc hsc hmc
  have s1sri : s1.comp.sriChunkAssets = comp.sriChunkAssets := by
    rw [hs1, e1]
    exact warnIfHotUpdate_sriChunkAssets _ _ _
  have s1assets_fa : s1.assets fa = assets0 fa := by
    rw [hs1, e1]
    show (replaceAsset digest algos acc0.assets acc0.hashById fc).1 fa =
      assets0 fa
    simp [replaceAsset, hfac]
  have hs1hash : ∃ v, s1.hashById = [(c, v)] :=
    ⟨(replaceAsset digest algos acc0.assets acc0.hashById
        fc).2.integrity.getD "",
     by rw [hs1, e1]; simp [mapSet]⟩
  obtain ⟨vC, hs1hash⟩ := hs1hash
  have e2 := processStep_clean digest algos g s1 b fb
    (by rw [s1sri]; exact hsb) hmb
  have s2sri : s2.comp.sriChunkAssets = comp.sriChunkAssets := by
    rw [hs2, e2]
    exact (warnIfHotUpdate_sriChunkAssets _ _ _).trans s1sri
  have s2assets_fa : s2.assets fa = assets0 fa := by
    rw [hs2, e2]
    show (replaceAsset digest algos s1.assets s1.hashById fb).1 fa = assets0 fa
    have hstep : (replaceAsset digest algos s1.assets s1.hashById fb).1 fa =
        s1.assets fa := by
      simp [replaceAsset, hfab]
    exact hstep.trans s1assets_fa
  have hs2hash : ∃ v, s2.hashById = [(c, vC), (b, v)] :=
    ⟨(replaceAsset digest algos s1.assets s1.hashById
        fb).2.integrity.getD "",
     by rw [hs2, e2, hs1hash]; simp [mapSet, Ne.symm hbc]⟩
  obtain ⟨vB, hs2hash⟩ := hs2hash
  have e3 := processStep_clean digest algos g s2 a fa
    (by rw [s2sri]; exact hsa) hma
  have hfinalhash : ∃ vA, (processStep digest algos g s2 a).hashById =
      [(c, vC), (b, vB), (a, vA)] :=
    ⟨(replaceAsset digest algos s2.assets s2.hashById
        fa).2.integrity.getD "",
     by rw [e3, hs2hash]; simp [mapSet, Ne.symm hac, Ne.symm hab]⟩
  obtain ⟨vA, hfinalhash⟩ := hfinalhash
  have hlookup : lookupId (processStep digest algos g s2 a).hashById b =
      some vB := by
    rw [hfinalhash]
    have hcb2 : (c == b) = false := by
      simp
      exact fun hcx => hbc hcx.symm
    simp [lookupId, List.find?, hcb2]
  have hfinalsrc : ((processStep digest algos g s2 a).assets fa).source =
      applyEntry algos (assets0 fa).source
        (applyEntry algos (assets0 fa).source (assets0 fa).source (c, vC))
        (b, vB) := by
    rw [e3]
    show ((replaceAsset digest algos s2.assets s2.hashById fa).1 fa).source = _
    have hopen : ((replaceAsset digest algos s2.assets s2.hashById fa).1
        fa).source =
        s2.hashById.foldl (applyEntry algos (s2.assets fa).source)
          (s2.assets fa).source := by
      simp [replaceAsset]
    rw [hopen, hs2hash, s2assets_fa]
    simp [List.foldl]
  have hrep := replace_chain_two algos b c vB vC hbc (assets0 fa).source hcount
  exact ⟨vB, hlookup, by rw [hfinalsrc]; exact hrep.1,
    by rw [hfinalsrc]; exact hrep.2⟩

/-- The chain graph 0 → 1 → 2, one output file per chunk. -/
def chainGraph : Graph :=
  { children := fun n => if n = 0 then [1] else if n = 1 then [2] else [],
    files := fun n =>
      if n = 0 then ["a.js"] else if n = 1 then ["b.js"]
      else if n = 2 then ["c.js"] else [],
    univ := [0, 1, 2] }

/-- The pre-pass table for the chain witness. -/
def chainComp : Compilation :=
  { freshComp with sriChunkAssets := fun n =>
      if n = 0 then some "a.js" else if n = 1 then some "b.js"
      else if n = 2 then some "c.js" else none }

/-- Initial assets for the chain witness: the root embeds chunk 1's
placeholder marker exactly once. -/
def chainAssets : String → Asset := fun p =>
  if p = "a.js" then
    { source := [Seg.lit "hdr", Seg.marker ["sha256"] 1], integrity := none }
  else if p = "b.js" then
    { source := [Seg.lit "b", Seg.marker ["sha256"] 2], integrity := none }
  else { source := [Seg.lit "c"], integrity := none }

/-- C1 witness: the concrete chain is processed in order [2, 1, 0] and the
root's bytes end up holding chunk 1's recorded integrity with no marker
left. -/
theorem C1_chain_order_and_bytes_witness :
    processOrder chainGraph 0 = [2, 1, 0] ∧
    ∃ hB, lookupId (processChunk (fun _ _ => "d") ["sha256"] chainGraph
        freshPlugin chainComp chainAssets 0).hashById 1 = some hB ∧
      Seg.lit hB ∈ ((processChunk (fun _ _ => "d") ["sha256"] chainGraph
        freshPlugin chainComp chainAssets 0).assets "a.js").source ∧
      countSeg ((processChunk (fun _ _ => "d") ["sha256"] chainGraph
        freshPlugin chainComp chainAssets 0).assets "a.js").source
        (makePlaceholder ["sha256"] 1) = 0 :=
  C1_chain_order_and_bytes (fun _ _ => "d") ["sha256"] chainGraph 0 1 2
    "a.js" "b.js" "c.js" freshPlugin chainComp chainAssets
    (by decide) (by decide) (by decide)
    rfl rfl rfl
    (by decide) (by decide) (by decide)
    rfl (by simp [chainGraph]) rfl (by simp [chainGraph]) rfl
    (by simp [chainGraph])
    (by decide) (by decide)
    (by decide)
